import Mathlib

/-
  Verification development for the zero-knowledge ASP attestation repository.

  The circuit `circuits/attestation/attestation.circom` instantiates
  `Attestation(4)` over a prime field with public signals `root`,
  `knownBadLeafHash` and private signals `leaf`, `pathElements[4]`,
  `pathIndices[4]`.  Its constraint system is the Merkle-proof gadget
  (per level: the DualMux constraints
    s * (1 - s) = 0,
    out0 = (in1 - in0) * s + in0,
    out1 = (in0 - in1) * s + in1,
  followed by the two-to-one compression of out0 and out1), the equation
  of the final hash with `root`, and the equality-test gadget
  (IsEqual built on IsZero: out = -in * inv + 1, in * out = 0) whose
  output is constrained to 0.

  We embed the constraint system shallowly over an arbitrary field,
  with the compression function as a parameter.  The Merkle tree builder
  and the registry state machine of the repository are not part of the
  circuit source; they are modelled from the specification where a claim
  needs them, as marked on the definitions below.
-/

/-! ## The circuit constraint system -/

/-- The DualMux-plus-hash step of the Merkle-proof gadget at one level.
`cur` is the running hash (in0), `e.1` the path element (in1), `e.2` the
path index signal (s); the outputs of the mux are compressed by `H`. -/
def muxStep {F : Type} [Field F] (H : F → F → F) (cur : F) (e : F × F) : F :=
  H ((e.1 - cur) * e.2 + cur) ((cur - e.1) * e.2 + e.1)

/-- The value computed by the chain of Merkle-proof levels on the given
leaf, path elements and path index signals (the hash the gadget equates
with the public `root`). -/
def chainRoot {F : Type} [Field F] (H : F → F → F) (leaf : F) (path : List (F × F)) : F :=
  path.foldl (muxStep H) leaf

/-- The per-level boolean constraints `pathIndices[k] * (1 - pathIndices[k]) = 0`
imposed by the DualMux gadget. -/
def merkleBits {F : Type} [Field F] (pi : Fin 4 → F) : Prop :=
  ∀ k : Fin 4, pi k * (1 - pi k) = 0

/-- The path as the list of (pathElements[k], pathIndices[k]) pairs, in level order. -/
def pathList {F : Type} (pe pi : Fin 4 → F) : List (F × F) :=
  List.ofFn (fun k => (pe k, pi k))

/-- The inclusion constraint set of Attestation(4): the DualMux boolean
constraints together with the equation of the gadget's final hash with `root`. -/
def inclusionConstraints {F : Type} [Field F] (H : F → F → F)
    (leaf root : F) (pe pi : Fin 4 → F) : Prop :=
  merkleBits pi ∧ chainRoot H leaf (pathList pe pi) = root

/-- The IsZero gadget constraints on input `inp`, output `out` and the
inverse-witness signal `inv`: out = -inp * inv + 1 and inp * out = 0. -/
def isZeroConstraints {F : Type} [Field F] (inp out inv : F) : Prop :=
  out = -inp * inv + 1 ∧ inp * out = 0

/-- The input signals of the Attestation(4) circuit. -/
structure AttInput (F : Type) where
  root : F
  knownBadLeafHash : F
  leaf : F
  pathElements : Fin 4 → F
  pathIndices : Fin 4 → F

/-- The full constraint system of Attestation(4): the inclusion constraint
set, the IsEqual gadget (IsZero applied to knownBadLeafHash - leaf, with
output signal `isEqOut` and inverse signal `inv`), and the assertion
`isEqOut = 0`. -/
def attestationConstraints {F : Type} [Field F] (H : F → F → F)
    (a : AttInput F) (isEqOut inv : F) : Prop :=
  inclusionConstraints H a.leaf a.root a.pathElements a.pathIndices ∧
  isZeroConstraints (a.knownBadLeafHash - a.leaf) isEqOut inv ∧
  isEqOut = 0

/-- Satisfiability of the Attestation(4) constraint system for the given
input signals: some assignment of the internal signals meets every constraint. -/
def attestationSat {F : Type} [Field F] (H : F → F → F) (a : AttInput F) : Prop :=
  ∃ isEqOut inv : F, attestationConstraints H a isEqOut inv

/-! ## Specification-side combination rule

The specification describes the inclusion check as: iteratively combine
`leaf` with each `pathElements[k]`, the side dictated by `pathIndices[k]`
(0 = leaf is left child, 1 = leaf is right child), under the compression
function.  These definitions follow the specification's words and are
compared with the constraint system above. -/

/-- One combination step following the specification's words: bit 0 puts
the running value on the left, bit 1 puts it on the right. -/
def specStep {α : Type} [DecidableEq α] [Zero α] (H : α → α → α) (cur : α) (e : α × α) : α :=
  if e.2 = 0 then H cur e.1 else H e.1 cur

/-- The final combined value after iterating `specStep` over the path. -/
def specRoot {α : Type} [DecidableEq α] [Zero α] (H : α → α → α) (leaf : α)
    (path : List (α × α)) : α :=
  path.foldl (specStep H) leaf

/-- The specification-side bit condition: each pathIndices[k] is 0 or 1. -/
def specBits {F : Type} [Field F] (pi : Fin 4 → F) : Prop :=
  ∀ k : Fin 4, pi k = 0 ∨ pi k = 1

/-- The specification-side inclusion statement: the path index signals are
bits and the iterative combination of the leaf along the path equals `root`. -/
def specInclusion {F : Type} [Field F] [DecidableEq F] (H : F → F → F)
    (leaf root : F) (pe pi : Fin 4 → F) : Prop :=
  specBits pi ∧ specRoot H leaf (pathList pe pi) = root

/-! ## Proof generation -/

/-- Decidable check for satisfiability of Attestation(4), via the
characterisation proved below. -/
def attestationCheck {F : Type} [Field F] [DecidableEq F] (H : F → F → F)
    (a : AttInput F) : Bool :=
  decide (∀ k : Fin 4, a.pathIndices k = 0 ∨ a.pathIndices k = 1) &&
  decide (specRoot H a.leaf (pathList a.pathElements a.pathIndices) = a.root) &&
  decide (a.leaf ≠ a.knownBadLeafHash)

/-- Errors of the proof generator. -/
inductive GenError
  | UnsatisfiableWitness
deriving DecidableEq

/-- Modelled from the spec: `ProofGenerator.generate` (the repository's
proof-generation script is not under src/).  It computes a witness
satisfying every circuit constraint; if none exists it fails
deterministically with `UnsatisfiableWitness`, otherwise it returns the
ordered public signals (root, knownBadLeafHash) alongside the proof. -/
def generate {F : Type} [Field F] [DecidableEq F] (H : F → F → F)
    (a : AttInput F) : Except GenError (F × F) :=
  if attestationCheck H a then Except.ok (a.root, a.knownBadLeafHash)
  else Except.error GenError.UnsatisfiableWitness

/-! ## Merkle tree builder

Modelled from the spec: the MerkleTreeBuilder component (the repository's
tree-building service code is not under src/).  Leaves are right-padded
with the canonical zero-leaf to the 16-slot capacity of depth 4; each
level pairs adjacent nodes under the compression function. -/

/-- The canonical zero-leaf used to pad short leaf sequences. -/
def zeroLeaf {α : Type} [Zero α] : α := 0

/-- Right-pad the leaf sequence with the zero-leaf to the 16-leaf capacity. -/
def padLeaves {α : Type} [Zero α] (l : List α) : List α :=
  l ++ List.replicate (16 - l.length) zeroLeaf

/-- Compress one tree level: adjacent pairs are hashed left-to-right. -/
def levelUp {α : Type} (H : α → α → α) : List α → List α
  | a :: b :: rest => H a b :: levelUp H rest
  | l => l

/-- Iterate `levelUp` the given number of times. -/
def buildLevels {α : Type} (H : α → α → α) : Nat → List α → List α
  | 0, l => l
  | n + 1, l => buildLevels H n (levelUp H l)

/-- Modelled from the spec: `MerkleTreeBuilder.build` - the root of the
depth-4 tree over the padded leaf sequence. -/
def build {α : Type} [Zero α] (H : α → α → α) (l : List α) : α :=
  (buildLevels H 4 (padLeaves l)).headD 0

/-- The sibling of node `j` at one level: the right neighbour when `j` is a
left child, the left neighbour otherwise. -/
def siblingAt {α : Type} [Zero α] (ns : List α) (j : Nat) : α :=
  if j % 2 = 0 then ns.getD (j + 1) 0 else ns.getD (j - 1) 0

/-- The direction bit of node `j` at one level, as a field element:
0 when `j` is a left child, 1 when it is a right child. -/
def bitAt {α : Type} [Zero α] [One α] (j : Nat) : α :=
  if j % 2 = 0 then 0 else 1

/-- The inclusion path for the node at position `j`, collecting the sibling
hash and direction bit at each of `n` levels. -/
def pathAux {α : Type} [Zero α] [One α] (H : α → α → α) :
    Nat → List α → Nat → List (α × α)
  | 0, _, _ => []
  | n + 1, ns, j => (siblingAt ns j, bitAt j) :: pathAux H n (levelUp H ns) (j / 2)

/-- Errors of the tree builder. -/
inductive TreeError
  | InvalidIndex
deriving DecidableEq

/-- Modelled from the spec: `MerkleTreeBuilder.pathFor` - the inclusion path
for the leaf at index `i`, failing with `InvalidIndex` when the index is
outside the current leaf count. -/
def pathFor {α : Type} [Zero α] [One α] (H : α → α → α) (l : List α) (i : Nat) :
    Except TreeError (List (α × α)) :=
  if i < l.length then Except.ok (pathAux H 4 (padLeaves l) i)
  else Except.error TreeError.InvalidIndex

/-! ## Circuit signal layout

Transcription of the signal declarations of `template Attestation` and the
public-signal list of the `main` component, in source order. -/

/-- The signal names of the Attestation template. -/
inductive SignalName
  | root
  | knownBadLeafHash
  | leaf
  | pathElements
  | pathIndices
deriving DecidableEq

/-- The input signals of `template Attestation(levels)` in declaration
order, each with its array arity (0 for a scalar signal). -/
def attestationInputs (levels : Nat) : List (SignalName × Nat) :=
  [(SignalName.root, 0),
   (SignalName.knownBadLeafHash, 0),
   (SignalName.leaf, 0),
   (SignalName.pathElements, levels),
   (SignalName.pathIndices, levels)]

/-- The depth parameter of the `main` component: `Attestation(4)`. -/
def mainLevels : Nat := 4

/-- The public-signal list of the `main` component, in declaration order. -/
def mainPublic : List SignalName :=
  [SignalName.root, SignalName.knownBadLeafHash]

/-! ## Registry state machine

Modelled from the spec: the AttestationRegistry contract is not under
src/.  The state holds the registered submitters and the stored
attestation records; `submitAttestation` rejects unauthorized callers,
malformed proofs (a Groth16 proof encodes as 8 field elements, the public
signals as the 2-element list [root, knownBadLeafHash]) and proofs the
fixed verification procedure rejects, and on success stores the new record
for the caller, superseding any prior record of the same caller. -/

/-- Rejection outcomes at the registry boundary. -/
inductive SubmitError
  | UnauthorizedSubmitter
  | MalformedProof
  | VerificationRejected
deriving DecidableEq

/-- A stored attestation record. -/
structure AttRecord (F : Type) where
  root : F
  timestamp : Nat
  submitter : Nat
  valid : Bool
deriving DecidableEq

/-- The registry state: registered submitters and stored attestation records. -/
structure RegistryState (F : Type) where
  registered : List Nat
  attestations : List (AttRecord F)
deriving DecidableEq

/-- The initial registry state: nobody registered, nothing stored. -/
def initialRegistry (F : Type) : RegistryState F := ⟨[], []⟩

/-- Modelled from the spec: `registerSubmitter` - admin-gated registration,
an idempotent no-op when the id is already registered. -/
def registerSubmitter {F : Type} (st : RegistryState F) (id : Nat) : RegistryState F :=
  if id ∈ st.registered then st else ⟨id :: st.registered, st.attestations⟩

/-- Modelled from the spec: `submitAttestation` - checks authorization,
proof shape and the fixed verification procedure; on success stores
{root = publicSignals.root, timestamp = now, submitter = caller,
valid = true}, replacing any prior record of the caller; on failure the
state is returned unchanged together with the rejection outcome. -/
def submitAttestation {F : Type} [Zero F] (verify : List F → List F → Bool)
    (st : RegistryState F) (caller : Nat) (pf ps : List F) (now : Nat) :
    RegistryState F × Option SubmitError :=
  if caller ∈ st.registered then
    if pf.length = 8 ∧ ps.length = 2 then
      if verify pf ps then
        (⟨st.registered,
          AttRecord.mk (ps.headD 0) now caller true ::
            st.attestations.filter (fun r => !decide (r.submitter = caller))⟩,
         none)
      else (st, some SubmitError.VerificationRejected)
    else (st, some SubmitError.MalformedProof)
  else (st, some SubmitError.UnauthorizedSubmitter)

/-- The number of stored records of submitter `s`. -/
def subCount {F : Type} (st : RegistryState F) (s : Nat) : Nat :=
  st.attestations.countP (fun r => decide (r.submitter = s))

/-- Each submitter owns at most one stored attestation record. -/
def atMostOnePerSubmitter {F : Type} (st : RegistryState F) : Prop :=
  ∀ s : Nat, subCount st s ≤ 1

/-- One registry transition: a registration or any submission attempt. -/
inductive RegistryStep {F : Type} [Zero F] (verify : List F → List F → Bool) :
    RegistryState F → RegistryState F → Prop
  | register (st : RegistryState F) (id : Nat) :
      RegistryStep verify st (registerSubmitter st id)
  | submit (st : RegistryState F) (caller : Nat) (pf ps : List F) (now : Nat) :
      RegistryStep verify st (submitAttestation verify st caller pf ps now).1

/-- Registry states reachable from the initial state. -/
def ReachableRegistry {F : Type} [Zero F] (verify : List F → List F → Bool)
    (st : RegistryState F) : Prop :=
  Relation.ReflTransGen (RegistryStep verify) (initialRegistry F) st

/-! ## Concrete field and fixtures for witnesses -/

instance : Fact (Nat.Prime 101) := ⟨by norm_num⟩

/-- A concrete compression function on the demonstration field. -/
def demoH : ZMod 101 → ZMod 101 → ZMod 101 := fun a b => 3 * a + b + 7

/-- Concrete path elements for witnesses. -/
def demoPE : Fin 4 → ZMod 101 := fun _ => 1

/-- Concrete all-left path index signals for witnesses. -/
def demoPI : Fin 4 → ZMod 101 := fun _ => 0

/-! ## Helper lemmas: the constraint system -/

/-- In a field, the DualMux boolean constraint forces a bit value. -/
lemma bit_constraint_iff {F : Type} [Field F] (s : F) : s * (1 - s) = 0 ↔ s = 0 ∨ s = 1 := by
  rw [mul_eq_zero, sub_eq_zero]
  constructor
  · rintro (h | h)
    · exact Or.inl h
    · exact Or.inr h.symm
  · rintro (h | h)
    · exact Or.inl h
    · exact Or.inr h.symm

/-- On bit values the mux formulas compute the specification's side selection. -/
lemma muxStep_eq_specStep {F : Type} [Field F] [DecidableEq F] (H : F → F → F)
    (cur : F) (e : F × F) (hb : e.2 = 0 ∨ e.2 = 1) :
    muxStep H cur e = specStep H cur e := by
  rcases hb with h | h
  · simp [muxStep, specStep, h]
  · rw [muxStep, specStep, h, if_neg one_ne_zero]
    congr 1 <;> ring

/-- On a path whose index signals are all bits, the constraint chain computes
the specification's iterative combination. -/
lemma chainRoot_eq_specRoot {F : Type} [Field F] [DecidableEq F] (H : F → F → F)
    (path : List (F × F)) (hb : ∀ e ∈ path, e.2 = 0 ∨ e.2 = 1) :
    ∀ leaf : F, chainRoot H leaf path = specRoot H leaf path := by
  induction path with
  | nil => intro leaf; rfl
  | cons e rest ih =>
    intro leaf
    have h1 : muxStep H leaf e = specStep H leaf e :=
      muxStep_eq_specStep H leaf e (hb e (List.mem_cons_self e rest))
    have h2 := ih (fun x hx => hb x (List.mem_cons_of_mem e hx))
    simp only [chainRoot, specRoot, List.foldl_cons] at h2 ⊢
    rw [h1]
    exact h2 _

/-- The per-level boolean constraints hold exactly when each index signal is a bit. -/
lemma merkleBits_iff_specBits {F : Type} [Field F] (pi : Fin 4 → F) :
    merkleBits pi ↔ specBits pi :=
  forall_congr' (fun k => bit_constraint_iff (pi k))

/-- Bits of the index signals transfer to the elements of the path list. -/
lemma pathList_bits {F : Type} [Field F] (pe pi : Fin 4 → F) (hb : specBits pi) :
    ∀ e ∈ pathList pe pi, e.2 = 0 ∨ e.2 = 1 := by
  intro e he
  rw [pathList, List.mem_ofFn] at he
  obtain ⟨k, hk⟩ := he
  rw [← hk]
  exact hb k

/-- The inclusion constraint set coincides with the specification-side
inclusion statement. -/
lemma inclusion_iff_spec {F : Type} [Field F] [DecidableEq F] (H : F → F → F)
    (leaf root : F) (pe pi : Fin 4 → F) :
    inclusionConstraints H leaf root pe pi ↔ specInclusion H leaf root pe pi := by
  unfold inclusionConstraints specInclusion
  constructor
  · rintro ⟨hb, hr⟩
    have hs := (merkleBits_iff_specBits pi).mp hb
    refine ⟨hs, ?_⟩
    rw [← chainRoot_eq_specRoot H _ (pathList_bits pe pi hs) leaf]
    exact hr
  · rintro ⟨hs, hr⟩
    refine ⟨(merkleBits_iff_specBits pi).mpr hs, ?_⟩
    rw [chainRoot_eq_specRoot H _ (pathList_bits pe pi hs) leaf]
    exact hr

/-- The IsZero gadget with its output pinned to 0 is satisfiable exactly
when the input is nonzero. -/
lemma isZero_out_zero_iff {F : Type} [Field F] (inp : F) :
    (∃ inv : F, isZeroConstraints inp 0 inv) ↔ inp ≠ 0 := by
  constructor
  · rintro ⟨inv, h1, _⟩ h0
    rw [h0] at h1
    simp at h1
  · intro h
    refine ⟨inp⁻¹, ?_, ?_⟩
    · rw [neg_mul, mul_inv_cancel₀ h]
      ring
    · ring

/-- Characterisation of satisfiability of the Attestation(4) constraint
system: the index signals are bits, the iterative combination reaches the
public root, and the leaf differs from the flagged bad leaf. -/
lemma attestationSat_iff {F : Type} [Field F] [DecidableEq F] (H : F → F → F)
    (a : AttInput F) :
    attestationSat H a ↔
      (specBits a.pathIndices ∧
       specRoot H a.leaf (pathList a.pathElements a.pathIndices) = a.root ∧
       a.leaf ≠ a.knownBadLeafHash) := by
  unfold attestationSat attestationConstraints
  constructor
  · rintro ⟨out, inv, hinc, hz, hout⟩
    subst hout
    obtain ⟨hb, hr⟩ :=
      (inclusion_iff_spec H a.leaf a.root a.pathElements a.pathIndices).mp hinc
    have hne : a.knownBadLeafHash - a.leaf ≠ 0 := (isZero_out_zero_iff _).mp ⟨inv, hz⟩
    exact ⟨hb, hr, fun h => hne (by rw [h, sub_self])⟩
  · rintro ⟨hb, hr, hne⟩
    obtain ⟨inv, hz⟩ := (isZero_out_zero_iff (a.knownBadLeafHash - a.leaf)).mpr
      (sub_ne_zero.mpr (Ne.symm hne))
    exact ⟨0, inv, (inclusion_iff_spec H _ _ _ _).mpr ⟨hb, hr⟩, hz, rfl⟩

/-- The decidable check agrees with satisfiability. -/
lemma attestationCheck_iff {F : Type} [Field F] [DecidableEq F] (H : F → F → F)
    (a : AttInput F) :
    attestationCheck H a = true ↔ attestationSat H a := by
  rw [attestationSat_iff]
  unfold attestationCheck specBits
  simp [and_assoc]

/-! ## Helper lemmas: the tree builder -/

lemma levelUp_length {α : Type} (H : α → α → α) :
    ∀ ns : List α, (levelUp H ns).length = (ns.length + 1) / 2
  | [] => by simp [levelUp]
  | [_] => by simp [levelUp]
  | a :: b :: rest => by
    simp only [levelUp, List.length_cons, levelUp_length H rest]
    omega

lemma levelUp_getD {α : Type} [Zero α] (H : α → α → α) :
    ∀ (ns : List α) (m : Nat), 2 * m + 1 < ns.length →
      (levelUp H ns).getD m 0 = H (ns.getD (2 * m) 0) (ns.getD (2 * m + 1) 0)
  | [], m, h => by simp at h
  | [_], m, h => by
    simp only [List.length_cons, List.length_nil] at h
    omega
  | _ :: _ :: _, 0, _ => by simp [levelUp, List.getD]
  | a :: b :: rest, m + 1, h => by
    have ih := levelUp_getD H rest m (by
      simp only [List.length_cons] at h
      omega)
    have e1 : 2 * (m + 1) = 2 * m + 1 + 1 := by ring
    have e2 : 2 * (m + 1) + 1 = 2 * m + 1 + 1 + 1 := by ring
    simp only [levelUp, e1, e2, List.getD_cons_succ]
    exact ih

lemma pathAux_length {α : Type} [Zero α] [One α] (H : α → α → α) :
    ∀ (n : Nat) (ns : List α) (j : Nat), (pathAux H n ns j).length = n
  | 0, _, _ => rfl
  | n + 1, ns, j => by
    simp only [pathAux, List.length_cons, pathAux_length H n]

lemma pathAux_bits {α : Type} [Zero α] [One α] (H : α → α → α) :
    ∀ (n : Nat) (ns : List α) (j : Nat), ∀ e ∈ pathAux H n ns j, e.2 = 0 ∨ e.2 = 1
  | 0, _, _, e, h => by simp [pathAux] at h
  | n + 1, ns, j, e, h => by
    simp only [pathAux, List.mem_cons] at h
    rcases h with h | h
    · subst h
      unfold bitAt
      by_cases hm : j % 2 = 0
      · simp [hm]
      · simp [hm]
    · exact pathAux_bits H n (levelUp H ns) (j / 2) e h

lemma padLeaves_length {α : Type} [Zero α] (l : List α) (h : l.length ≤ 16) :
    (padLeaves l).length = 16 := by
  simp only [padLeaves, List.length_append, List.length_replicate]
  omega

/-- Replaying the collected path from the node at position `j` with the
specification's combination rule reproduces the root of the level stack. -/
lemma pathAux_recompute {α : Type} [DecidableEq α] [Zero α] [One α] (H : α → α → α)
    (hone : (1 : α) ≠ 0) :
    ∀ (n : Nat) (ns : List α) (j : Nat), j < ns.length → ns.length = 2 ^ n →
      specRoot H (ns.getD j 0) (pathAux H n ns j) = (buildLevels H n ns).headD 0
  | 0, ns, j, hj, hlen => by
    obtain ⟨x, rfl⟩ := List.length_eq_one.mp (by simpa using hlen)
    have hj0 : j = 0 := by
      simp only [List.length_cons, List.length_nil] at hj
      omega
    subst hj0
    rfl
  | n + 1, ns, j, hj, hlen => by
    have h2n : ns.length = 2 * 2 ^ n := by rw [hlen]; ring
    have hlu_len : (levelUp H ns).length = 2 ^ n := by
      rw [levelUp_length H ns, h2n]
      omega
    have hj2 : j / 2 < (levelUp H ns).length := by
      rw [hlu_len]
      omega
    have ih := pathAux_recompute H hone n (levelUp H ns) (j / 2) hj2 hlu_len
    have hstep : specStep H (ns.getD j 0) (siblingAt ns j, bitAt j) =
        (levelUp H ns).getD (j / 2) 0 := by
      rcases Nat.even_or_odd j with he | ho
      · have hm : j % 2 = 0 := Nat.even_iff.mp he
        have hj1 : 2 * (j / 2) + 1 < ns.length := by omega
        rw [levelUp_getD H ns (j / 2) hj1]
        have e1 : 2 * (j / 2) = j := by omega
        rw [e1]
        simp [specStep, siblingAt, bitAt, hm]
      · have hm : j % 2 = 1 := Nat.odd_iff.mp ho
        have hj1 : 2 * (j / 2) + 1 < ns.length := by omega
        rw [levelUp_getD H ns (j / 2) hj1]
        have e1 : 2 * (j / 2) + 1 = j := by omega
        have e2 : 2 * (j / 2) = j - 1 := by omega
        rw [e1, e2]
        simp [specStep, siblingAt, bitAt, hm, hone]
    calc specRoot H (ns.getD j 0) (pathAux H (n + 1) ns j)
        = specRoot H (specStep H (ns.getD j 0) (siblingAt ns j, bitAt j))
            (pathAux H n (levelUp H ns) (j / 2)) := rfl
      _ = specRoot H ((levelUp H ns).getD (j / 2) 0)
            (pathAux H n (levelUp H ns) (j / 2)) := by rw [hstep]
      _ = (buildLevels H n (levelUp H ns)).headD 0 := ih
      _ = (buildLevels H (n + 1) ns).headD 0 := rfl

/-- With a pairwise-injective compression function, replaying the same path
from two different starting values cannot reach the same root (the idealised
form of collision resistance). -/
lemma specRoot_inj {α : Type} [DecidableEq α] [Zero α] (H : α → α → α)
    (Hinj : ∀ a b c d : α, H a b = H c d → a = c ∧ b = d) :
    ∀ (p : List (α × α)) (x y : α), specRoot H x p = specRoot H y p → x = y
  | [], _, _, h => h
  | e :: rest, x, y, h => by
    have h2 : specStep H x e = specStep H y e :=
      specRoot_inj H Hinj rest (specStep H x e) (specStep H y e) h
    unfold specStep at h2
    by_cases hb : e.2 = 0
    · rw [if_pos hb, if_pos hb] at h2
      exact (Hinj _ _ _ _ h2).1
    · rw [if_neg hb, if_neg hb] at h2
      exact (Hinj _ _ _ _ h2).2

lemma ofFn_getD {β : Type} (p : List β) (d : β) (hp : p.length = 4) :
    List.ofFn (fun k : Fin 4 => p.getD k d) = p := by
  apply List.ext_getElem
  · simp [hp]
  · intro i h1 h2
    simp only [List.getElem_ofFn]
    rw [List.getD_eq_getElem p d h2]

/-- A length-4 path list is recovered from its per-level projections. -/
lemma pathList_getD {F : Type} [Zero F] (p : List (F × F)) (hp : p.length = 4) :
    pathList (fun k => (p.getD k (0, 0)).1) (fun k => (p.getD k (0, 0)).2) = p := by
  unfold pathList
  have he : (fun k : Fin 4 => ((p.getD k (0, 0)).1, (p.getD k (0, 0)).2)) =
      fun k : Fin 4 => p.getD k (0, 0) := by
    funext k
    exact Prod.mk.eta
  rw [he]
  exact ofFn_getD p (0, 0) hp

/-! ## Helper lemmas: the registry -/

lemma countP_filter_le {β : Type} (p q : β → Bool) (l : List β) :
    (l.filter q).countP p ≤ l.countP p := by
  induction l with
  | nil => simp
  | cons a t ih =>
    rw [List.filter_cons]
    by_cases hq : q a
    · rw [if_pos hq, List.countP_cons, List.countP_cons]
      exact Nat.add_le_add_right ih _
    · rw [if_neg hq, List.countP_cons]
      exact le_trans ih (Nat.le_add_right _ _)

lemma subCount_register {F : Type} (st : RegistryState F) (id s : Nat) :
    subCount (registerSubmitter st id) s = subCount st s := by
  unfold registerSubmitter subCount
  split
  · rfl
  · rfl

/-- Every submission attempt either succeeds with the superseding state or
fails with one of the three rejection outcomes, leaving the state unchanged. -/
lemma submit_cases {F : Type} [Zero F] (verify : List F → List F → Bool)
    (st : RegistryState F) (caller : Nat) (pf ps : List F) (now : Nat) :
    submitAttestation verify st caller pf ps now =
      (⟨st.registered,
        AttRecord.mk (ps.headD 0) now caller true ::
          st.attestations.filter (fun r => !decide (r.submitter = caller))⟩, none) ∨
    submitAttestation verify st caller pf ps now = (st, some SubmitError.UnauthorizedSubmitter) ∨
    submitAttestation verify st caller pf ps now = (st, some SubmitError.MalformedProof) ∨
    submitAttestation verify st caller pf ps now = (st, some SubmitError.VerificationRejected) := by
  unfold submitAttestation
  by_cases h1 : caller ∈ st.registered
  · rw [if_pos h1]
    by_cases h2 : pf.length = 8 ∧ ps.length = 2
    · rw [if_pos h2]
      by_cases h3 : verify pf ps = true
      · rw [if_pos h3]
        exact Or.inl rfl
      · rw [if_neg h3]
        exact Or.inr (Or.inr (Or.inr rfl))
    · rw [if_neg h2]
      exact Or.inr (Or.inr (Or.inl rfl))
  · rw [if_neg h1]
    exact Or.inr (Or.inl rfl)

/-- Records of other submitters never count towards a submitter's tally. -/
lemma countP_filter_ne_zero {F : Type} (atts : List (AttRecord F)) (caller : Nat) :
    (atts.filter (fun r => !decide (r.submitter = caller))).countP
      (fun r => decide (r.submitter = caller)) = 0 := by
  rw [List.countP_eq_zero]
  intro r hr
  rw [List.mem_filter] at hr
  simpa using hr.2

lemma subCount_submit_le {F : Type} [Zero F] (verify : List F → List F → Bool)
    (st : RegistryState F) (caller : Nat) (pf ps : List F) (now s : Nat)
    (h : subCount st s ≤ 1) :
    subCount (submitAttestation verify st caller pf ps now).1 s ≤ 1 := by
  rcases submit_cases verify st caller pf ps now with hc | hc | hc | hc
  · rw [hc]
    unfold subCount
    rw [List.countP_cons]
    by_cases hcs : caller = s
    · subst hcs
      rw [countP_filter_ne_zero]
      simp
    · have hne : decide ((AttRecord.mk (ps.headD 0) now caller true).submitter = s) = false := by
        simpa using hcs
      rw [hne]
      simpa using le_trans
        (countP_filter_le (fun r => decide (r.submitter = s))
          (fun r => !decide (r.submitter = caller)) st.attestations) h
  · rw [hc]
    exact h
  · rw [hc]
    exact h
  · rw [hc]
    exact h

lemma reachable_amo {F : Type} [Zero F] (verify : List F → List F → Bool)
    (st : RegistryState F) (h : ReachableRegistry verify st) :
    atMostOnePerSubmitter st := by
  unfold ReachableRegistry at h
  induction h with
  | refl =>
    intro s
    simp [initialRegistry, subCount]
  | tail hst hstep ih =>
    cases hstep with
    | register id =>
      intro s
      rw [subCount_register]
      exact ih s
    | submit caller pf ps now =>
      intro s
      exact subCount_submit_le verify _ caller pf ps now s (ih s)

/-- A successful submission produces exactly the superseding state. -/
lemma submit_success_state {F : Type} [Zero F] (verify : List F → List F → Bool)
    (st st1 : RegistryState F) (caller : Nat) (pf ps : List F) (now : Nat)
    (h : submitAttestation verify st caller pf ps now = (st1, none)) :
    st1 = ⟨st.registered,
      AttRecord.mk (ps.headD 0) now caller true ::
        st.attestations.filter (fun r => !decide (r.submitter = caller))⟩ := by
  rcases submit_cases verify st caller pf ps now with hc | hc | hc | hc
  · rw [hc] at h
    exact (congrArg Prod.fst h).symm
  · rw [hc] at h
    simp at h
  · rw [hc] at h
    simp at h
  · rw [hc] at h
    simp at h

/-- After a successful submission, the caller's records reduce to the single
new record. -/
lemma filter_after_success {F : Type} (atts : List (AttRecord F)) (caller : Nat)
    (rec : AttRecord F) (hrec : rec.submitter = caller) :
    (rec :: atts.filter (fun r => !decide (r.submitter = caller))).filter
      (fun r => decide (r.submitter = caller)) = [rec] := by
  rw [List.filter_cons, if_pos (by simpa using hrec)]
  rw [List.filter_filter]
  have hfalse : ∀ r : AttRecord F,
      (decide (r.submitter = caller) && !decide (r.submitter = caller)) = false := by
    intro r
    by_cases hr : r.submitter = caller
    · simp [hr]
    · simp [hr]
  simp only [hfalse]
  rw [List.filter_false]

/-! ## Claim theorems -/

/-- Claim C1: the inclusion constraint set of Attestation(4) is satisfied
exactly when iteratively combining `leaf` with each `pathElements[k]`,
taking the leaf's side from `pathIndices[k]` (0 = leaf is left child,
1 = leaf is right child) under the compression function, yields a final
value equal to the public input `root`. -/
theorem c1_inclusion_iff_spec_combination {F : Type} [Field F] [DecidableEq F]
    (H : F → F → F) (leaf root : F) (pe pi : Fin 4 → F) :
    inclusionConstraints H leaf root pe pi ↔ specInclusion H leaf root pe pi :=
  inclusion_iff_spec H leaf root pe pi

/-- Claim C2: with `leaf = knownBadLeafHash` the Attestation(4) constraint
system is unsatisfiable regardless of the path inputs and `generate` fails
with `UnsatisfiableWitness`; with `leaf` different from `knownBadLeafHash`
the inequality-gadget constraints (output pinned to 0) are satisfiable. -/
theorem c2_bad_leaf_unsatisfiable {F : Type} [Field F] [DecidableEq F]
    (H : F → F → F) (a : AttInput F) :
    (attestationSat H a → a.leaf ≠ a.knownBadLeafHash) ∧
    (a.leaf = a.knownBadLeafHash →
      ¬ attestationSat H a ∧ generate H a = Except.error GenError.UnsatisfiableWitness) ∧
    (a.leaf ≠ a.knownBadLeafHash →
      ∃ inv : F, isZeroConstraints (a.knownBadLeafHash - a.leaf) 0 inv) := by
  refine ⟨?_, ?_, ?_⟩
  · intro hs
    exact ((attestationSat_iff H a).mp hs).2.2
  · intro heq
    have hns : ¬ attestationSat H a := fun hs => ((attestationSat_iff H a).mp hs).2.2 heq
    refine ⟨hns, ?_⟩
    have hc : attestationCheck H a = false := by
      rw [Bool.eq_false_iff]
      intro ht
      exact hns ((attestationCheck_iff H a).mp ht)
    simp [generate, hc]
  · intro hne
    exact (isZero_out_zero_iff _).mpr (sub_ne_zero.mpr (Ne.symm hne))

/-- Witness for C2 at a concrete assignment with leaf equal to the bad leaf. -/
theorem c2_bad_leaf_unsatisfiable_witness :
    ¬ attestationSat demoH (AttInput.mk 0 5 5 demoPE demoPI) ∧
    generate demoH (AttInput.mk 0 5 5 demoPE demoPI) =
      Except.error GenError.UnsatisfiableWitness :=
  (c2_bad_leaf_unsatisfiable demoH (AttInput.mk 0 5 5 demoPE demoPI)).2.1 rfl

/-- Claim C3: every satisfying assignment of Attestation(4) gives each
`pathIndices[k]` a bit value (so any assignment with a value outside
{0, 1} is unsatisfiable). -/
theorem c3_path_index_bit {F : Type} [Field F] (H : F → F → F) (a : AttInput F)
    (k : Fin 4) (h : attestationSat H a) :
    a.pathIndices k = 0 ∨ a.pathIndices k = 1 := by
  obtain ⟨out, inv, ⟨hb, _⟩, _⟩ := h
  exact (bit_constraint_iff (a.pathIndices k)).mp (hb k)

/-- Witness for C3 at a concrete satisfying assignment. -/
theorem c3_path_index_bit_witness :
    (AttInput.mk (chainRoot demoH 5 (pathList demoPE demoPI)) 6 5 demoPE demoPI).pathIndices 2 = 0 ∨
    (AttInput.mk (chainRoot demoH 5 (pathList demoPE demoPI)) 6 5 demoPE demoPI).pathIndices 2 = 1 :=
  c3_path_index_bit demoH
    (AttInput.mk (chainRoot demoH 5 (pathList demoPE demoPI)) 6 5 demoPE demoPI) 2
    ⟨0, 1, by
      unfold attestationConstraints inclusionConstraints merkleBits isZeroConstraints
      decide⟩

/-- Claim C4: the main component is Attestation instantiated at depth 4
(16-leaf capacity); its public signals are exactly `root` and
`knownBadLeafHash` in that order, and its private signals are `leaf`,
`pathElements[4]` and `pathIndices[4]`. -/
theorem c4_main_signal_layout :
    mainLevels = 4 ∧ 2 ^ mainLevels = 16 ∧
    mainPublic = [SignalName.root, SignalName.knownBadLeafHash] ∧
    attestationInputs mainLevels =
      [(SignalName.root, 0), (SignalName.knownBadLeafHash, 0), (SignalName.leaf, 0),
       (SignalName.pathElements, 4), (SignalName.pathIndices, 4)] ∧
    (attestationInputs mainLevels).filter (fun s => decide (s.1 ∈ mainPublic)) =
      [(SignalName.root, 0), (SignalName.knownBadLeafHash, 0)] ∧
    (attestationInputs mainLevels).filter (fun s => !decide (s.1 ∈ mainPublic)) =
      [(SignalName.leaf, 0), (SignalName.pathElements, 4), (SignalName.pathIndices, 4)] := by
  decide

/-- Claim C5: every failing submission (unauthorized submitter, malformed
proof, or rejected verification) leaves the registry state exactly as it
was: no attestation entry is created, replaced or partially written. -/
theorem c5_failed_submission_atomic {F : Type} [Zero F]
    (verify : List F → List F → Bool) (st : RegistryState F)
    (caller : Nat) (pf ps : List F) (now : Nat) (e : SubmitError)
    (h : (submitAttestation verify st caller pf ps now).2 = some e) :
    (submitAttestation verify st caller pf ps now).1 = st := by
  rcases submit_cases verify st caller pf ps now with hc | hc | hc | hc
  · rw [hc] at h
    simp at h
  · rw [hc]
  · rw [hc]
  · rw [hc]

/-- Witness for C5: an unauthorized submission on the empty registry is
rejected and leaves the state unchanged. -/
theorem c5_failed_submission_atomic_witness :
    (submitAttestation (fun _ _ => false) (initialRegistry ℕ) 3 [] [] 0).2 =
      some SubmitError.UnauthorizedSubmitter ∧
    (submitAttestation (fun _ _ => false) (initialRegistry ℕ) 3 [] [] 0).1 =
      initialRegistry ℕ :=
  ⟨rfl, c5_failed_submission_atomic (fun _ _ => false) (initialRegistry ℕ) 3 [] [] 0
    SubmitError.UnauthorizedSubmitter rfl⟩

/-- Claim C6: reachable registry states hold at most one attestation per
submitter, and after two accepted submissions in sequence from the same
submitter exactly the second record is stored for that submitter. -/
theorem c6_supersede_single_attestation {F : Type} [Zero F]
    (verify : List F → List F → Bool) (st st1 st2 : RegistryState F)
    (caller : Nat) (pf1 ps1 : List F) (t1 : Nat) (pf2 ps2 : List F) (t2 : Nat)
    (hr : ReachableRegistry verify st)
    (h1 : submitAttestation verify st caller pf1 ps1 t1 = (st1, none))
    (h2 : submitAttestation verify st1 caller pf2 ps2 t2 = (st2, none)) :
    atMostOnePerSubmitter st ∧
    atMostOnePerSubmitter st2 ∧
    st2.attestations.filter (fun r => decide (r.submitter = caller)) =
      [AttRecord.mk (ps2.headD 0) t2 caller true] ∧
    subCount st2 caller = 1 := by
  have e1 : (submitAttestation verify st caller pf1 ps1 t1).1 = st1 := by rw [h1]
  have e2 : (submitAttestation verify st1 caller pf2 ps2 t2).1 = st2 := by rw [h2]
  have step1 : RegistryStep verify st st1 :=
    e1 ▸ RegistryStep.submit st caller pf1 ps1 t1
  have step2 : RegistryStep verify st1 st2 :=
    e2 ▸ RegistryStep.submit st1 caller pf2 ps2 t2
  have hr2 : ReachableRegistry verify st2 :=
    Relation.ReflTransGen.tail (Relation.ReflTransGen.tail hr step1) step2
  have hs2 := submit_success_state verify st1 st2 caller pf2 ps2 t2 h2
  have hfil : st2.attestations.filter (fun r => decide (r.submitter = caller)) =
      [AttRecord.mk (ps2.headD 0) t2 caller true] := by
    rw [hs2]
    exact filter_after_success st1.attestations caller
      (AttRecord.mk (ps2.headD 0) t2 caller true) rfl
  refine ⟨reachable_amo verify st hr, reachable_amo verify st2 hr2, hfil, ?_⟩
  unfold subCount
  rw [List.countP_eq_length_filter, hfil]
  rfl

/-- Witness for C6: two accepted submissions from submitter 7. -/
theorem c6_supersede_single_attestation_witness :
    atMostOnePerSubmitter (registerSubmitter (initialRegistry ℕ) 7) ∧
    atMostOnePerSubmitter (RegistryState.mk [7] [AttRecord.mk 9 20 7 true]) ∧
    (RegistryState.mk [7] [AttRecord.mk 9 20 7 true]).attestations.filter
      (fun r => decide (r.submitter = 7)) = [AttRecord.mk 9 20 7 true] ∧
    subCount (RegistryState.mk [7] [AttRecord.mk 9 20 7 true]) 7 = 1 :=
  c6_supersede_single_attestation (fun _ _ => true)
    (registerSubmitter (initialRegistry ℕ) 7)
    (RegistryState.mk [7] [AttRecord.mk 5 10 7 true])
    (RegistryState.mk [7] [AttRecord.mk 9 20 7 true])
    7 (List.replicate 8 0) [5, 1] 10 (List.replicate 8 0) [9, 1] 20
    (Relation.ReflTransGen.tail Relation.ReflTransGen.refl
      (RegistryStep.register (initialRegistry ℕ) 7))
    (by decide) (by decide)

/-- Claim C7: the root is a pure function of the padded ordered leaf
sequence: any two leaf sequences with the same right-padded form produce
the same root. -/
theorem c7_build_deterministic {α : Type} [Zero α] (H : α → α → α)
    (l1 l2 : List α) (h : padLeaves l1 = padLeaves l2) :
    build H l1 = build H l2 := by
  unfold build
  rw [h]

/-- Witness for C7: a sequence and its zero-extended form share the root. -/
theorem c7_build_deterministic_witness :
    build Nat.pair [1, 2] = build Nat.pair [1, 2, 0] :=
  c7_build_deterministic Nat.pair [1, 2] [1, 2, 0] (by decide)

/-- Claim C8: for every leaf sequence of length at most 16 and valid index,
`pathFor` returns the level-ordered path, replaying it from the stored leaf
with the circuit's combination rule reproduces the tree root, and (with the
compression function injective on pairs, the idealised form of the
specification's collision resistance) the replay reaches the root exactly
when the replayed value is the leaf truly stored at that index. -/
theorem c8_inclusion_round_trip {α : Type} [DecidableEq α] [Zero α] [One α]
    (H : α → α → α) (l : List α) (i : Nat) (X : α)
    (hone : (1 : α) ≠ 0)
    (Hinj : ∀ a b c d : α, H a b = H c d → a = c ∧ b = d)
    (hlen : l.length ≤ 16) (hi : i < l.length) :
    pathFor H l i = Except.ok (pathAux H 4 (padLeaves l) i) ∧
    specRoot H ((padLeaves l).getD i 0) (pathAux H 4 (padLeaves l) i) = build H l ∧
    (specRoot H X (pathAux H 4 (padLeaves l) i) = build H l ↔
      X = (padLeaves l).getD i 0) := by
  have hplen : (padLeaves l).length = 16 := padLeaves_length l hlen
  have hi16 : i < (padLeaves l).length := by omega
  have hpow : (padLeaves l).length = 2 ^ 4 := by
    rw [hplen]
    decide
  have hrt := pathAux_recompute H hone 4 (padLeaves l) i hi16 hpow
  refine ⟨?_, hrt, ?_⟩
  · unfold pathFor
    rw [if_pos hi]
  · constructor
    · intro hx
      exact specRoot_inj H Hinj _ _ _ (hx.trans hrt.symm)
    · intro hx
      rw [hx]
      exact hrt

/-- Witness for C8 on a three-leaf tree over the naturals with the Cantor
pairing as injective compression. -/
theorem c8_inclusion_round_trip_witness :
    pathFor Nat.pair [10, 20, 30] 1 =
      Except.ok (pathAux Nat.pair 4 (padLeaves [10, 20, 30]) 1) ∧
    specRoot Nat.pair ((padLeaves [10, 20, 30]).getD 1 0)
      (pathAux Nat.pair 4 (padLeaves [10, 20, 30]) 1) = build Nat.pair [10, 20, 30] ∧
    (specRoot Nat.pair 20 (pathAux Nat.pair 4 (padLeaves [10, 20, 30]) 1) =
        build Nat.pair [10, 20, 30] ↔
      20 = (padLeaves [10, 20, 30]).getD 1 0) :=
  c8_inclusion_round_trip Nat.pair [10, 20, 30] 1 20 (by decide)
    (fun _ _ _ _ h => Nat.pair_eq_pair.mp h) (by decide) (by decide)

/-- Claim C9: the circuit proves only pointwise inequality, not
non-membership: any leaf stored in the tree at a valid index, as long as it
differs from `knownBadLeafHash`, yields a satisfying assignment of
Attestation(4) against the tree's root - even though that leaf is itself a
member of the committed exclusion set. -/
theorem c9_member_leaf_satisfiable {F : Type} [Field F] [DecidableEq F]
    (H : F → F → F) (l : List F) (i : Nat) (bad : F)
    (hlen : l.length ≤ 16) (hi : i < l.length)
    (hne : (padLeaves l).getD i 0 ≠ bad) :
    attestationSat H (AttInput.mk (build H l) bad ((padLeaves l).getD i 0)
      (fun k => ((pathAux H 4 (padLeaves l) i).getD k (0, 0)).1)
      (fun k => ((pathAux H 4 (padLeaves l) i).getD k (0, 0)).2)) := by
  rw [attestationSat_iff]
  have hp4 : (pathAux H 4 (padLeaves l) i).length = 4 :=
    pathAux_length H 4 (padLeaves l) i
  have hplen : (padLeaves l).length = 16 := padLeaves_length l hlen
  refine ⟨?_, ?_, hne⟩
  · intro k
    apply pathAux_bits H 4 (padLeaves l) i
    have hk : (k : Nat) < (pathAux H 4 (padLeaves l) i).length := by
      rw [hp4]
      exact k.isLt
    rw [List.getD_eq_getElem _ (0, 0) hk]
    exact List.getElem_mem hk
  · show specRoot H ((padLeaves l).getD i 0) _ = _
    rw [pathList_getD (pathAux H 4 (padLeaves l) i) hp4]
    exact pathAux_recompute H one_ne_zero 4 (padLeaves l) i (by omega)
      (by rw [hplen]; decide)

/-- Witness for C9 on a concrete two-leaf tree over ZMod 101. -/
theorem c9_member_leaf_satisfiable_witness :
    attestationSat demoH (AttInput.mk (build demoH [3, 5]) 88 ((padLeaves [3, 5]).getD 1 0)
      (fun k => ((pathAux demoH 4 (padLeaves [3, 5]) 1).getD k (0, 0)).1)
      (fun k => ((pathAux demoH 4 (padLeaves [3, 5]) 1).getD k (0, 0)).2)) :=
  c9_member_leaf_satisfiable demoH [3, 5] 1 88 (by decide) (by decide) (by decide)

/-- Claim C10: `knownBadLeafHash` is touched only by the single inequality
against `leaf`: every valid leaf/path assignment stays satisfiable for every
value of the public bad leaf different from the proven leaf, whether or not
that value occurs anywhere in the committed tree. -/
theorem c10_bad_leaf_unconstrained {F : Type} [Field F] [DecidableEq F]
    (H : F → F → F) (root leaf B : F) (pe pi : Fin 4 → F)
    (hv : inclusionConstraints H leaf root pe pi) (hne : leaf ≠ B) :
    attestationSat H (AttInput.mk root B leaf pe pi) := by
  obtain ⟨inv, hz⟩ := (isZero_out_zero_iff (B - leaf)).mpr (sub_ne_zero.mpr (Ne.symm hne))
  exact ⟨0, inv, hv, hz, rfl⟩

/-- Witness for C10 with a bad-leaf value absent from the assignment. -/
theorem c10_bad_leaf_unconstrained_witness :
    attestationSat demoH
      (AttInput.mk (chainRoot demoH 5 (pathList demoPE demoPI)) 77 5 demoPE demoPI) :=
  c10_bad_leaf_unconstrained demoH (chainRoot demoH 5 (pathList demoPE demoPI)) 5 77
    demoPE demoPI
    (by
      unfold inclusionConstraints merkleBits
      exact ⟨by decide, rfl⟩)
    (by decide)
